import Mathlib

/-!
Verification of the go-rag-ai query-orchestration pipeline.

Go strings are modelled as lists of bytes (`GoStr`); Go `float32`/`float64`
arithmetic is modelled exactly over `ℚ` (the claims settled here do not
depend on rounding, only on the algebraic shape of the computations);
Go loops are modelled as structurally recursive functions on an explicit
fuel argument so that every definition evaluates inside the kernel, with
the fuel chosen so that it never runs out on the loop's actual domain.
-/

/-- A Go string, as its byte sequence (Go indexes and slices strings by byte). -/
abbrev GoStr := List Nat

/-- Bytes of an ASCII Lean string literal (all literals used here are ASCII,
for which the Go UTF-8 byte sequence is the codepoint sequence). -/
def strBytes (s : String) : GoStr :=
  s.data.map Char.toNat

/-- Decimal representation of a natural, as Go `fmt.Sprintf("%d", n)` prints it. -/
def natBytes (n : Nat) : GoStr :=
  strBytes (Nat.repr n)

/-- Go's UTF-8 decoding of the first rune of a byte sequence, as
`for i, char := range text` performs it: returns (codepoint, size).
Invalid sequences (stray continuation bytes, overlong encodings, surrogates,
codepoints beyond U+10FFFF, truncated sequences) yield (0xFFFD, 1). -/
def utf8DecodeGo (l : List Nat) : Nat × Nat :=
  match l.get? 0 with
  | none => (0xFFFD, 1)
  | some b0 =>
    if b0 < 0x80 then (b0, 1)
    else if 0xC2 ≤ b0 && b0 ≤ 0xDF then
      match l.get? 1 with
      | some b1 =>
        if 0x80 ≤ b1 && b1 ≤ 0xBF then (((b0 - 0xC0) * 64) + (b1 - 0x80), 2)
        else (0xFFFD, 1)
      | none => (0xFFFD, 1)
    else if 0xE0 ≤ b0 && b0 ≤ 0xEF then
      match l.get? 1, l.get? 2 with
      | some b1, some b2 =>
        let lo1 := if b0 = 0xE0 then 0xA0 else 0x80
        let hi1 := if b0 = 0xED then 0x9F else 0xBF
        if lo1 ≤ b1 && b1 ≤ hi1 && 0x80 ≤ b2 && b2 ≤ 0xBF then
          (((b0 - 0xE0) * 4096) + ((b1 - 0x80) * 64) + (b2 - 0x80), 3)
        else (0xFFFD, 1)
      | _, _ => (0xFFFD, 1)
    else if 0xF0 ≤ b0 && b0 ≤ 0xF4 then
      match l.get? 1, l.get? 2, l.get? 3 with
      | some b1, some b2, some b3 =>
        let lo1 := if b0 = 0xF0 then 0x90 else 0x80
        let hi1 := if b0 = 0xF4 then 0x8F else 0xBF
        if lo1 ≤ b1 && b1 ≤ hi1 && 0x80 ≤ b2 && b2 ≤ 0xBF && 0x80 ≤ b3 && b3 ≤ 0xBF then
          (((b0 - 0xF0) * 262144) + ((b1 - 0x80) * 4096) + ((b2 - 0x80) * 64) + (b3 - 0x80), 4)
        else (0xFFFD, 1)
      | _, _, _ => (0xFFFD, 1)
    else (0xFFFD, 1)

/-- Go `unicode.IsSpace` on a codepoint: the Unicode White_Space property
(ASCII whitespace, NEL U+0085, NBSP U+00A0, and the Unicode space runes). -/
def goIsSpaceRune (c : Nat) : Bool :=
  c == 9 || c == 10 || c == 11 || c == 12 || c == 13 || c == 32 ||
  c == 0x85 || c == 0xA0 || c == 0x1680 ||
  (0x2000 ≤ c && c ≤ 0x200A) || c == 0x2028 || c == 0x2029 ||
  c == 0x202F || c == 0x205F || c == 0x3000

/-- Go `utf8.RuneStart`: a byte that does not have the continuation-byte
form 10xxxxxx. -/
def runeStart (b : Nat) : Bool :=
  !(0x80 ≤ b && b ≤ 0xBF)

/-- The backward scan of Go `utf8.DecodeLastRune`: from position `s` step
down while the position is at least `lim` and the byte there is not a rune
start. Go inspects at most three positions, so fuel 6 is ample. -/
def scanStart (l : List Nat) (lim : Int) : Nat → Int → Int
  | 0, s => s
  | fuel + 1, s =>
    if s < lim then s
    else if runeStart ((l.get? s.toNat).getD 0) then s
    else scanStart l lim fuel (s - 1)

/-- Go `utf8.DecodeLastRune`, as `strings.TrimRightFunc` uses it: the last
rune of the byte sequence and its size; (0xFFFD, 0) on empty input, and
(0xFFFD, 1) when the trailing bytes do not form one complete rune. -/
def utf8DecodeLastGo (l : List Nat) : Nat × Nat :=
  match l.getLast? with
  | none => (0xFFFD, 0)
  | some b =>
    if b < 0x80 then (b, 1)
    else
      let s := scanStart l (max ((l.length : Int) - 4) 0) 6 ((l.length : Int) - 2)
      let start := (max s 0).toNat
      let d := utf8DecodeGo (l.drop start)
      if start + d.2 = l.length then d else (0xFFFD, 1)

/-- The rune-wise left trim of Go `strings.TrimSpace`: drop leading
whitespace runes (an invalid sequence decodes to U+FFFD, which is not
whitespace and stops the trim). Fuel `l.length` suffices: every dropped
rune consumes at least one byte. -/
def trimLeftSpace : Nat → GoStr → GoStr
  | 0, l => l
  | _ + 1, [] => []
  | fuel + 1, b :: rest =>
    if goIsSpaceRune (utf8DecodeGo (b :: rest)).1 then
      trimLeftSpace fuel ((b :: rest).drop (utf8DecodeGo (b :: rest)).2)
    else b :: rest

/-- The rune-wise right trim of Go `strings.TrimSpace`: drop trailing
whitespace runes, decoding backwards. -/
def trimRightSpace : Nat → GoStr → GoStr
  | 0, l => l
  | fuel + 1, l =>
    if goIsSpaceRune (utf8DecodeLastGo l).1 then
      trimRightSpace fuel (l.take (l.length - (utf8DecodeLastGo l).2))
    else l

/-- Go `strings.TrimSpace`: trim whitespace runes from both ends (the ASCII
fast path and the `TrimFunc`/`TrimRightFunc` slow path agree on these
semantics). -/
def trimSpace (l : GoStr) : GoStr :=
  trimRightSpace l.length (trimLeftSpace l.length l)

/-- src/unnamed/part_000 `TextChunk`: a chunk of text with metadata.
`Metadata` is the Go `map[string]string`, as an association list. -/
structure TextChunk where
  ID : GoStr
  Content : GoStr
  Source : GoStr
  Metadata : List (GoStr × GoStr)
deriving DecidableEq, Repr

/-- The loop body of src/unnamed/part_000 `Embedder.ChunkText`:
`for i := 0; i < len(text); i += (chunkSize - overlap)` sliding a window
`text[i:end]` with `end = min(i+chunkSize, len(text))`; a window whose
trimmed content is empty is skipped (`continue`, which also skips the
break test); otherwise the trimmed window (the Go locals `chunk` and its
trim, written out here) is emitted and the loop breaks once
`end >= len(text)`. Returns the emitted contents in order.
The fuel argument makes the recursion structural; `none` means the fuel
ran out with the Go loop still running (with `overlap < chunkSize` the
step is positive and fuel `text.length + 1` never runs out; with
`chunkSize <= overlap` the Go loop diverges, and the model's Nat step of 0
makes the fuel run out instead). -/
def chunkLoop (text : GoStr) (chunkSize overlap : Nat) :
    Nat → Nat → Option (List GoStr)
  | 0, _ => none
  | fuel + 1, i =>
    if i < text.length then
      if trimSpace ((text.drop i).take chunkSize) = [] then
        chunkLoop text chunkSize overlap fuel (i + (chunkSize - overlap))
      else if text.length ≤ i + chunkSize then some [trimSpace ((text.drop i).take chunkSize)]
      else (chunkLoop text chunkSize overlap fuel (i + (chunkSize - overlap))).map
        (trimSpace ((text.drop i).take chunkSize) :: ·)
    else some []

/-- src/unnamed/part_000 `Embedder.ChunkText` restricted to the emitted chunk
contents: the input is trimmed, then the sliding-window loop runs from
offset 0 with fuel `length + 1`. -/
def chunkContents (text : GoStr) (chunkSize overlap : Nat) : Option (List GoStr) :=
  let t := trimSpace text
  chunkLoop t chunkSize overlap (t.length + 1) 0

/-- src/unnamed/part_000 `Embedder.ChunkText`: each emitted content becomes a
`TextChunk` with the source label and metadata `{"source": source, "chunk": k}`
where `k = len(chunks)` at append time, i.e. the emission index. -/
def ChunkText (text source : GoStr) (chunkSize overlap : Nat) :
    Option (List TextChunk) :=
  (chunkContents text chunkSize overlap).map fun cs =>
    cs.enum.map fun p =>
      { ID := []
        Content := p.2
        Source := source
        Metadata := [(strBytes "source", source), (strBytes "chunk", natBytes p.1)] }

/-- The rune loop of src/unnamed/part_000 `Embedder.GetEmbedding`:
`for i, char := range text { hash = (hash*31 + int(char)) % 1000000;
if i < len(embedding) { embedding[i] = float32(hash%100) / 100.0 } }`,
where `i` is the byte offset of the rune. The written coordinate values
`hash % 100` are naturals (the written float is exactly that natural divided
by 100, see `GetEmbedding`), so the loop is kept over `Nat` and the division
by 100 is applied afterwards. Structural on fuel; fuel `bs.length` suffices
since each rune consumes at least one byte (at fuel 0 the byte list is
already empty on that domain, and the loop returns the embedding unchanged). -/
def embedLoop : Nat → List Nat → Nat → Nat → List Nat → List Nat
  | 0, _, _, _, emb => emb
  | _ + 1, [], _, _, emb => emb
  | fuel + 1, b :: rest, i, hash, emb =>
    let d := utf8DecodeGo (b :: rest)
    let hash' := (hash * 31 + d.1) % 1000000
    let emb' := if i < 384 then emb.set i (hash' % 100) else emb
    embedLoop fuel ((b :: rest).drop d.2) (i + d.2) hash' emb'

/-- The 384-entry integer contents of `GetEmbedding`'s vector right after the
rune loop: entry `i` is 100 times the float stored at index `i` (unwritten
entries keep the initial 0.0). -/
def embedRaw (text : GoStr) : List Nat :=
  embedLoop text.length text 0 0 (List.replicate 384 0)

/-- Sum of squares of a vector (the `norm` accumulator of `GetEmbedding`
before the scaling step). -/
def sumSq (v : List ℚ) : ℚ :=
  (v.map fun x => x * x).sum

/-- Sum of squares of the integer contents of the vector. -/
def sumSqNat (l : List Nat) : Nat :=
  (l.map fun k => k * k).sum

/-- src/unnamed/part_000 `Embedder.GetEmbedding`: a 384-dimensional vector,
coordinate `i` (a byte offset) set to `(hash % 100) / 100.0` from the rolling
hash, then every coordinate multiplied by `norm = 1.0 / (sum_of_squares + 0.0001)`
(the code's own final step: note it multiplies by the reciprocal of the sum
of squares plus epsilon, with no square root anywhere). -/
def GetEmbedding (text : GoStr) : List ℚ :=
  let raw := (embedRaw text).map fun k => (Nat.cast k : ℚ) / 100
  let norm := 1 / (sumSq raw + 1 / 10000)
  raw.map fun v => v * norm

/-- src/chat.go (conversation-memory snapshot) `ConversationMessage`.
The `time.Time` timestamp is an abstract `Nat`. -/
structure ConversationMessage where
  Role : GoStr
  Content : GoStr
  Timestamp : Nat
deriving DecidableEq, Repr

/-- src/config.go `Config`, restricted to the fields the modelled code reads:
`SystemPrompt`, `ChatModel` and the Groq credential (the conversation-memory
snapshot of chat.go reads `config.GroqAPIKey`). -/
structure Config where
  GroqAPIKey : GoStr
  ChatModel : GoStr
  SystemPrompt : GoStr
deriving DecidableEq, Repr

/-- src/chat.go `ChatBot` (conversation-memory snapshot): configuration plus
the append-only conversation history. -/
structure ChatBot where
  config : Config
  conversationHistory : List ConversationMessage
deriving DecidableEq, Repr

/-- src/chat.go `GroqMessage`: one role/content turn of the outbound request. -/
structure GroqMessage where
  Role : GoStr
  Content : GoStr
deriving DecidableEq, Repr

/-- src/chat.go `GroqChatRequest`: the JSON body of the generation call. -/
structure GroqChatRequest where
  Model : GoStr
  Messages : List GroqMessage
  Temperature : ℚ
  MaxTokens : Nat
deriving DecidableEq, Repr

/-- src/chat.go `ChatBot.AddToHistory`: append one turn (with `time.Now()`
passed in as `ts`). -/
def AddToHistory (cb : ChatBot) (role content : GoStr) (ts : Nat) : ChatBot :=
  { cb with conversationHistory :=
      cb.conversationHistory ++ [{ Role := role, Content := content, Timestamp := ts }] }

/-- The message window built inside src/chat.go `ChatBot.Query`: the system
prompt turn, then the history from `historyStart` on, where `historyStart`
is `len - 20` when the history holds more than 20 turns and 0 otherwise. -/
def QueryMessages (systemPrompt : GoStr) (history : List ConversationMessage) :
    List GroqMessage :=
  let historyStart := if history.length > 20 then history.length - 20 else 0
  { Role := strBytes "system", Content := systemPrompt } ::
    (history.drop historyStart).map fun m => { Role := m.Role, Content := m.Content }

/-- The `GroqChatRequest` that src/chat.go `ChatBot.Query` marshals and POSTs:
built after the user turn is appended, with temperature 0.7 and max_tokens
1024. -/
def QueryRequest (cb : ChatBot) (question : GoStr) (tsUser : Nat) : GroqChatRequest :=
  { Model := cb.config.ChatModel
    Messages := QueryMessages cb.config.SystemPrompt
      (AddToHistory cb (strBytes "user") question tsUser).conversationHistory
    Temperature := 7 / 10
    MaxTokens := 1024 }

/-- The outcome of the external effects of one `ChatBot.Query` call:
marshalling, request construction, the network call and the body read can
each fail; otherwise the response carries an HTTP status and a body whose
JSON either fails to unmarshal (`none`) or yields the list of completion
choice contents. -/
inductive HttpOutcome where
  | marshalErr
  | newReqErr
  | doErr
  | readErr
  | resp (status : Nat) (choices : Option (List GoStr))
deriving DecidableEq, Repr

/-- src/chat.go `ChatBot.Query` (conversation-memory snapshot): append the
user turn, build the outbound request, then follow the code's
early-return error chain; only on full success is the assistant turn
appended. Returns Go's `(string, error)` pair as an `Except`, together with
the updated receiver. -/
def Query (cb : ChatBot) (question : GoStr) (tsUser tsAsst : Nat)
    (out : HttpOutcome) : Except GoStr GoStr × ChatBot :=
  let cb1 := AddToHistory cb (strBytes "user") question tsUser
  let _req := QueryRequest cb question tsUser
  match out with
  | .marshalErr => (.error (strBytes "failed to marshal request"), cb1)
  | .newReqErr => (.error (strBytes "failed to create request"), cb1)
  | .doErr => (.error (strBytes "failed to call Groq API"), cb1)
  | .readErr => (.error (strBytes "failed to read response"), cb1)
  | .resp status choices =>
    if status ≠ 200 then (.error (strBytes "Groq API error"), cb1)
    else match choices with
      | none => (.error (strBytes "failed to unmarshal response"), cb1)
      | some [] => (.error (strBytes "no response from model"), cb1)
      | some (answer :: _) =>
        (.ok answer, AddToHistory cb1 (strBytes "assistant") answer tsAsst)

/-- src/store.go `SearchResult`: a retrieval hit with its similarity score. -/
structure SearchResult where
  ID : GoStr
  Content : GoStr
  Source : GoStr
  Similarity : ℚ
deriving DecidableEq, Repr

/-- Rounding to the nearest integer with ties to even, as Go's `fmt` verb
`%.2f` rounds (applied to 100 times the value). -/
def roundHalfEven (x : ℚ) : ℤ :=
  let f := ⌊x⌋
  let r := x - (f : ℚ)
  if r < 1 / 2 then f
  else if 1 / 2 < r then f + 1
  else if f % 2 = 0 then f else f + 1

/-- Go `fmt.Sprintf("%.2f", x)`: the value rounded to two decimal places
(shallow model; the sign of a negative value rounding to 0.00 is dropped). -/
def fmt2f (x : ℚ) : GoStr :=
  let n := roundHalfEven (x * 100)
  let a := n.natAbs
  (if n < 0 then strBytes "-" else []) ++ natBytes (a / 100) ++ strBytes "." ++
    (if a % 100 < 10 then strBytes "0" else []) ++ natBytes (a % 100)

/-- One iteration of the context loop of src/chat.go (RAG snapshot)
`ChatBot.Query`, step 3: `"\n[Document %d - Similarity: %.2f]\n%s\n"`
formatted with `i+1`, the result's similarity and its content. -/
def contextLine (i : Nat) (r : SearchResult) : GoStr :=
  strBytes "\n[Document " ++ natBytes (i + 1) ++ strBytes " - Similarity: " ++
    fmt2f r.Similarity ++ strBytes "]\n" ++ r.Content ++ strBytes "\n"

/-- src/chat.go (RAG snapshot) `ChatBot.Query`, step 3: `context_text` is
empty for no results, otherwise `"Context:\n"` followed by one
`contextLine` per result in order. -/
def contextText (results : List SearchResult) : GoStr :=
  if results.isEmpty then []
  else strBytes "Context:\n" ++ (results.enum.map fun p => contextLine p.1 p.2).flatten

/-- src/chat.go (RAG snapshot) `ChatBot.Query`, step 4: the augmented prompt
`fmt.Sprintf("%s\n\nQuestion: %s\n\nAnswer based on the context above:",
context_text, question)`. -/
def RagPrompt (results : List SearchResult) (question : GoStr) : GoStr :=
  contextText results ++ strBytes "\n\nQuestion: " ++ question ++
    strBytes "\n\nAnswer based on the context above:"

/-- One row of the `documents` table written by src/store.go
`VectorStore.StoreChunk` (`metadata` is always passed as SQL NULL). -/
structure DocRow where
  id : GoStr
  content : GoStr
  source : GoStr
  embedding : List ℚ
deriving DecidableEq, Repr

/-- src/store.go `VectorStore.StoreChunk`: the row id is `uuid.New().String()`
(a fresh random UUID generated on every call, modelled by the `freshId`
parameter), and the SQL is `INSERT ... ON CONFLICT (id) DO UPDATE SET
content = EXCLUDED.content, embedding = EXCLUDED.embedding`: insert a new
row under `freshId`, or update content and embedding of the existing row
with that id. -/
def StoreChunk (db : List DocRow) (chunk : TextChunk) (embedding : List ℚ)
    (freshId : GoStr) : List DocRow :=
  if (db.map DocRow.id).contains freshId then
    db.map fun r =>
      if r.id = freshId then { r with content := chunk.Content, embedding := embedding }
      else r
  else db ++ [{ id := freshId, content := chunk.Content, source := chunk.Source,
                embedding := embedding }]

/-- src/internal/llm `LLMClient`: one constructor per provider implementation,
each holding exactly the state its `New...Client` constructor stores
(API key and model; the embedded `http.Client` holds no request state). -/
inductive LLMClient where
  | groq (apiKey model : GoStr)
  | openai (apiKey model : GoStr)
  | anthropic (apiKey model : GoStr)
  | gemini (apiKey model : GoStr)
  | openrouter (apiKey model : GoStr)
deriving DecidableEq, Repr

/-- src/internal/llm/factory.go `NewClient`: a pure switch on the provider
name; unrecognized names yield the `unsupported LLM provider` error. -/
def NewClient (provider apiKey model : GoStr) : Except GoStr LLMClient :=
  if provider = strBytes "groq" then .ok (.groq apiKey model)
  else if provider = strBytes "openai" then .ok (.openai apiKey model)
  else if provider = strBytes "anthropic" then .ok (.anthropic apiKey model)
  else if provider = strBytes "gemini" then .ok (.gemini apiKey model)
  else if provider = strBytes "openrouter" then .ok (.openrouter apiKey model)
  else .error (strBytes "unsupported LLM provider")

/-- Modelled from the spec: `BackendHandle` (spec section 3) — provider
identifier, model identifier, credential. The repository's files contain the
`GenerationBackend` implementations and their factory (src/internal/llm) but
no session code calling them, so the `ConversationSession` of spec
sections 4.5 and 5 is modelled from the spec's words here and below. -/
structure BackendHandle where
  provider : GoStr
  model : GoStr
  credential : GoStr
deriving DecidableEq, Repr

/-- Modelled from the spec: `ConversationTurn` (spec section 3) — role,
content, creation timestamp, originating backend identifier (empty for user
turns). -/
structure ConversationTurn where
  role : GoStr
  content : GoStr
  timestamp : Nat
  backend : GoStr
deriving DecidableEq, Repr

/-- Modelled from the spec: `ConversationSession` state (spec section 4.5) —
append-only turn log plus the currently active BackendHandle/GenerationBackend
pair. -/
structure ConversationSession where
  history : List ConversationTurn
  activeHandle : BackendHandle
  activeBackend : LLMClient
deriving DecidableEq, Repr

/-- Modelled from the spec: the write-locked part of
`ConversationSession.query` step 1 plus the read-locked step 2 (spec
section 4.5) — append the `user` turn, then snapshot the active
backend/handle pair for the outbound call; the lock is released before any
network I/O, so this is one atomic step of the interleaving semantics. -/
def dispatchQuery (s : ConversationSession) (question : GoStr) (ts : Nat) :
    ConversationSession × (BackendHandle × LLMClient) :=
  ({ s with history := s.history ++
      [{ role := strBytes "user", content := question, timestamp := ts, backend := [] }] },
   (s.activeHandle, s.activeBackend))

/-- Modelled from the spec: `ConversationSession.query` step 4 (spec
section 4.5) — once the snapshotted backend's `generate` returns, append the
`assistant` turn tagged with the backend identifier captured at dispatch. -/
def completeQuery (s : ConversationSession) (snapshot : BackendHandle × LLMClient)
    (answer : GoStr) (ts : Nat) : ConversationSession :=
  { s with history := s.history ++
      [{ role := strBytes "assistant", content := answer, timestamp := ts,
         backend := snapshot.1.provider }] }

/-- Modelled from the spec: `ConversationSession.switchBackend` (spec
section 4.5) — under a write lock, construct a new backend through the
registry (src/internal/llm `NewClient`) and atomically replace the active
pair; on construction failure leave the prior backend active. One atomic
step of the interleaving semantics. -/
def switchBackend (s : ConversationSession) (provider model credential : GoStr) :
    ConversationSession :=
  match NewClient provider credential model with
  | .ok c => { s with activeHandle := ⟨provider, model, credential⟩, activeBackend := c }
  | .error _ => s

/-- A sequence of concurrent `switchBackend` calls, applied in the
serialization order their write locks give them. -/
def applySwitches (switches : List (GoStr × GoStr × GoStr))
    (s : ConversationSession) : ConversationSession :=
  switches.foldl (fun st sw => switchBackend st sw.1 sw.2.1 sw.2.2) s

/-- Whitespace-free ASCII byte strings: every byte is ASCII (below 0x80) and
not a whitespace codepoint, so `trimSpace` leaves every window of the text
unchanged (a non-ASCII byte could form a Unicode whitespace rune that
`strings.TrimSpace` would strip at a window edge). -/
def NoWS (l : GoStr) : Prop :=
  ∀ b ∈ l, b < 128 ∧ goIsSpaceRune b = false

instance : DecidablePred NoWS := fun l =>
  inferInstanceAs (Decidable (∀ b ∈ l, b < 128 ∧ goIsSpaceRune b = false))

/-- Concatenation of chunks with the overlap removed: the first chunk whole,
each later chunk with its first `overlap` characters dropped. -/
def joinOverlap (overlap : Nat) : List GoStr → GoStr
  | [] => []
  | c :: rest => c ++ (rest.map (List.drop overlap)).flatten

/-- The raw windows of the sliding-window loop from offset `i`: the full
window `text[i : i+chunkSize]` while it ends before the end of the text, then
one final (possibly short) window `text[i:]`. Same fuel discipline as
`chunkLoop`. -/
def winList (text : GoStr) (chunkSize step : Nat) : Nat → Nat → List GoStr
  | 0, _ => []
  | fuel + 1, i =>
    if text.length ≤ i + chunkSize then [text.drop i]
    else (text.drop i).take chunkSize :: winList text chunkSize step fuel (i + step)

/-- The most recent 20 turns of a history (all of it when it holds 20 or
fewer): the window `ChatBot.Query` is specified to send. -/
def recentTurns (history : List ConversationMessage) : List ConversationMessage :=
  history.drop (history.length - 20)

theorem switchBackend_history (s : ConversationSession) (p m k : GoStr) :
    (switchBackend s p m k).history = s.history := by
  rcases h : NewClient p k m with e | c <;> simp [switchBackend, h]

theorem applySwitches_history (switches : List (GoStr × GoStr × GoStr))
    (s : ConversationSession) : (applySwitches switches s).history = s.history := by
  induction switches generalizing s with
  | nil => rfl
  | cons sw rest ih =>
    show (applySwitches rest (switchBackend s sw.1 sw.2.1 sw.2.2)).history = s.history
    rw [ih, switchBackend_history]

/-- C8: src/internal/llm/factory.go `NewClient` succeeds exactly on the five
recognized provider names, and for each recognized name it merely constructs
the corresponding client value from the credential and model (the model is a
pure function: no I/O, no state). -/
theorem NewClient_ok_iff_supported (provider apiKey model : GoStr) :
    ((∃ c, NewClient provider apiKey model = Except.ok c) ↔
      (provider = strBytes "groq" ∨ provider = strBytes "openai" ∨
       provider = strBytes "anthropic" ∨ provider = strBytes "gemini" ∨
       provider = strBytes "openrouter")) ∧
    NewClient (strBytes "groq") apiKey model = Except.ok (.groq apiKey model) ∧
    NewClient (strBytes "openai") apiKey model = Except.ok (.openai apiKey model) ∧
    NewClient (strBytes "anthropic") apiKey model = Except.ok (.anthropic apiKey model) ∧
    NewClient (strBytes "gemini") apiKey model = Except.ok (.gemini apiKey model) ∧
    NewClient (strBytes "openrouter") apiKey model = Except.ok (.openrouter apiKey model) := by
  have h1 : strBytes "openai" ≠ strBytes "groq" := by decide
  have h2 : strBytes "anthropic" ≠ strBytes "groq" := by decide
  have h3 : strBytes "anthropic" ≠ strBytes "openai" := by decide
  have h4 : strBytes "gemini" ≠ strBytes "groq" := by decide
  have h5 : strBytes "gemini" ≠ strBytes "openai" := by decide
  have h6 : strBytes "gemini" ≠ strBytes "anthropic" := by decide
  have h7 : strBytes "openrouter" ≠ strBytes "groq" := by decide
  have h8 : strBytes "openrouter" ≠ strBytes "openai" := by decide
  have h9 : strBytes "openrouter" ≠ strBytes "anthropic" := by decide
  have h10 : strBytes "openrouter" ≠ strBytes "gemini" := by decide
  refine ⟨?_, by simp [NewClient], by simp [NewClient, h1],
    by simp [NewClient, h2, h3], by simp [NewClient, h4, h5, h6],
    by simp [NewClient, h7, h8, h9, h10]⟩
  unfold NewClient
  split_ifs with g1 g2 g3 g4 g5 <;> simp_all

/-- C9: a backend switch serialized anywhere between a query's dispatch
(user turn appended, active backend snapshotted under the read lock) and its
completion neither cancels nor affects the in-flight call: the assistant
turn it appends is tagged with the provider of the backend that was active
at dispatch, the snapshot taken at dispatch is that backend, and the
intervening switches leave the turn log untouched. -/
theorem inflight_query_keeps_dispatch_backend_tag
    (s : ConversationSession) (question answer : GoStr) (tsU tsA : Nat)
    (switches : List (GoStr × GoStr × GoStr)) :
    (completeQuery (applySwitches switches (dispatchQuery s question tsU).1)
        (dispatchQuery s question tsU).2 answer tsA).history =
      (applySwitches switches (dispatchQuery s question tsU).1).history ++
        [ConversationTurn.mk (strBytes "assistant") answer tsA
           s.activeHandle.provider] ∧
    (dispatchQuery s question tsU).2.1 = s.activeHandle ∧
    (applySwitches switches (dispatchQuery s question tsU).1).history =
      s.history ++ [ConversationTurn.mk (strBytes "user") question tsU []] := by
  refine ⟨by simp [completeQuery, dispatchQuery], rfl, ?_⟩
  rw [applySwitches_history]
  simp [dispatchQuery]

/-- C4: src/store.go `VectorStore.StoreChunk` keys every call by a freshly
generated random UUID, so storing the same chunk twice inserts two rows:
the entry count grows from 1 to 2 (the `ON CONFLICT (id) DO UPDATE` upsert
clause never fires because its key is never reused). -/
theorem storeChunk_same_chunk_twice_grows :
    (StoreChunk [] (TextChunk.mk (strBytes "c0") (strBytes "Go is fun")
        (strBytes "data.txt") []) [] (strBytes "uuid-1")).length = 1 ∧
    (StoreChunk
        (StoreChunk [] (TextChunk.mk (strBytes "c0") (strBytes "Go is fun")
            (strBytes "data.txt") []) [] (strBytes "uuid-1"))
        (TextChunk.mk (strBytes "c0") (strBytes "Go is fun")
            (strBytes "data.txt") []) [] (strBytes "uuid-2")).length = 2 := by
  constructor <;> rfl

/-- C2: the generation call of src/chat.go `ChatBot.Query` sends exactly the
system prompt turn followed by the most recent 20 turns of the history as it
stands after the user turn is appended (all of it when it holds 20 or
fewer), in original oldest-first order; `recentTurns` is a suffix of the
history of length `min 20 len`, and at 25 turns it is exactly the last 20. -/
theorem query_sends_system_plus_last_20 (cb : ChatBot) (question : GoStr) (tsUser : Nat) :
    (QueryRequest cb question tsUser).Messages =
      GroqMessage.mk (strBytes "system") cb.config.SystemPrompt ::
        (recentTurns (AddToHistory cb (strBytes "user") question tsUser).conversationHistory).map
          (fun m => GroqMessage.mk m.Role m.Content) ∧
    ∀ h : List ConversationMessage,
      recentTurns h <:+ h ∧ (recentTurns h).length = min 20 h.length ∧
      (h.length = 25 → recentTurns h = h.drop 5) := by
  constructor
  · show (QueryMessages _ _ : List GroqMessage) = _
    unfold QueryMessages recentTurns
    by_cases hl :
        (AddToHistory cb (strBytes "user") question tsUser).conversationHistory.length > 20
    · simp [hl]
    · have h0 :
          (AddToHistory cb (strBytes "user") question tsUser).conversationHistory.length - 20
            = 0 := by omega
      simp [hl, h0]
  · intro h
    refine ⟨List.drop_suffix _ _, ?_, ?_⟩
    · rw [recentTurns, List.length_drop]; omega
    · intro h25
      unfold recentTurns
      rw [h25]

/-- C6: whenever src/chat.go `ChatBot.Query` fails (marshal error, request
construction error, network error, body-read error, non-200 status,
unmarshal error, or zero completion choices), the resulting receiver state
is exactly the prior state with the single user turn appended: no assistant
turn and no other mutation. -/
theorem query_failure_appends_only_user_turn
    (cb : ChatBot) (question : GoStr) (tsUser tsAsst : Nat) (out : HttpOutcome)
    (e : GoStr) (herr : (Query cb question tsUser tsAsst out).1 = Except.error e) :
    (Query cb question tsUser tsAsst out).2 =
      AddToHistory cb (strBytes "user") question tsUser := by
  cases out with
  | marshalErr => rfl
  | newReqErr => rfl
  | doErr => rfl
  | readErr => rfl
  | resp status choices =>
    by_cases hs : status = 200
    · subst hs
      cases choices with
      | none => rfl
      | some l =>
        cases l with
        | nil => rfl
        | cons a t => simp [Query] at herr
    · simp [Query, hs]

/-- Witness for C6: a concrete failing call (HTTP status 500) whose error is
surfaced and whose final state is the prior state plus the one user turn. -/
theorem query_failure_appends_only_user_turn_witness :
    (Query (ChatBot.mk (Config.mk [] [] []) []) (strBytes "hi") 1 2 (.resp 500 none)).1 =
      Except.error (strBytes "Groq API error") ∧
    (Query (ChatBot.mk (Config.mk [] [] []) []) (strBytes "hi") 1 2 (.resp 500 none)).2 =
      AddToHistory (ChatBot.mk (Config.mk [] [] []) []) (strBytes "user") (strBytes "hi") 1 :=
  ⟨by rfl, query_failure_appends_only_user_turn _ _ _ _ _ _ (by rfl)⟩

theorem infix_glue (A Y : GoStr) {l X : GoStr} (h : l <:+: X) : l <:+: A ++ X ++ Y := by
  obtain ⟨s, t, rfl⟩ := h
  exact ⟨A ++ s, t ++ Y, by simp⟩

theorem part_infix_enum_flatten (g : SearchResult → GoStr)
    (hg : ∀ (i : Nat) (r : SearchResult), g r <:+: contextLine i r) :
    ∀ (k : Nat) (rs : List SearchResult), ∀ r ∈ rs,
      g r <:+: ((rs.enumFrom k).map fun p => contextLine p.1 p.2).flatten := by
  intro k rs
  induction rs generalizing k with
  | nil => intro r hr; cases hr
  | cons a t ih =>
    intro r hr
    rw [List.enumFrom_cons]
    rcases List.mem_cons.mp hr with rfl | hrt
    · obtain ⟨s, u, hsu⟩ := hg k r
      exact ⟨s, u ++ ((t.enumFrom (k + 1)).map fun p => contextLine p.1 p.2).flatten,
        by simp [← hsu]⟩
    · obtain ⟨s, u, hsu⟩ := ih (k + 1) r hrt
      exact ⟨contextLine k a ++ s, u, by simp [← hsu]⟩

set_option maxRecDepth 20000 in
/-- Counterexample for C5: with no retrieval results, the prompt src/chat.go
(RAG snapshot) `ChatBot.Query` sends onward is not the bare question — the
question is still wrapped in the `Question:`/`Answer based on the context
above:` template; and with a non-empty result list the context block never
mentions the result's source (here `data.txt`, which appears nowhere in the
prompt). -/
theorem ragPrompt_empty_not_bare_and_source_absent :
    RagPrompt [] (strBytes "hi") ≠ strBytes "hi" ∧
    ¬ (strBytes "data.txt" <:+: RagPrompt
        [SearchResult.mk (strBytes "d1") (strBytes "Go is fun") (strBytes "data.txt")
          (97 / 100)]
        (strBytes "hi")) := by
  constructor
  · decide
  · with_unfolding_all decide

/-- C5 amended: the RAG `ChatBot.Query` prompt is always the question wrapped
in the fixed template after the context block: with empty results the
context block is empty (so the prompt is the wrapped question, not the bare
question), and with non-empty results the block starts with `Context:` and
enumerates each result's similarity and content (the source is not
included). -/
theorem ragPrompt_context_block_shape :
    (∀ question : GoStr, RagPrompt [] question =
      strBytes "\n\nQuestion: " ++ question ++
        strBytes "\n\nAnswer based on the context above:") ∧
    (∀ (results : List SearchResult) (question : GoStr), ∀ r ∈ results,
      strBytes "Context:\n" <+: RagPrompt results question ∧
      r.Content <:+: RagPrompt results question ∧
      fmt2f r.Similarity <:+: RagPrompt results question ∧
      question <:+: RagPrompt results question) := by
  constructor
  · intro question
    simp [RagPrompt, contextText]
  · intro rs question r hr
    have hne : rs.isEmpty = false := by
      cases rs with
      | nil => cases hr
      | cons a t => rfl
    have hctx : contextText rs =
        strBytes "Context:\n" ++ ((rs.enumFrom 0).map fun p => contextLine p.1 p.2).flatten := by
      rw [contextText, hne]
      rfl
    have hrag : RagPrompt rs question =
        strBytes "Context:\n" ++ ((rs.enumFrom 0).map fun p => contextLine p.1 p.2).flatten ++
          (strBytes "\n\nQuestion: " ++ question ++
            strBytes "\n\nAnswer based on the context above:") := by
      rw [RagPrompt, hctx]
      simp [List.append_assoc]
    refine ⟨?_, ?_, ?_, ?_⟩
    · refine ⟨((rs.enumFrom 0).map fun p => contextLine p.1 p.2).flatten ++
        (strBytes "\n\nQuestion: " ++ question ++
          strBytes "\n\nAnswer based on the context above:"), ?_⟩
      rw [hrag]
      simp [List.append_assoc]
    · rw [hrag]
      refine infix_glue _ _ (part_infix_enum_flatten (fun x => x.Content) ?_ 0 rs r hr)
      intro i x
      exact ⟨strBytes "\n[Document " ++ natBytes (i + 1) ++ strBytes " - Similarity: " ++
        fmt2f x.Similarity ++ strBytes "]\n", strBytes "\n", by simp [contextLine, List.append_assoc]⟩
    · rw [hrag]
      refine infix_glue _ _ (part_infix_enum_flatten (fun x => fmt2f x.Similarity) ?_ 0 rs r hr)
      intro i x
      exact ⟨strBytes "\n[Document " ++ natBytes (i + 1) ++ strBytes " - Similarity: ",
        strBytes "]\n" ++ x.Content ++ strBytes "\n", by simp [contextLine, List.append_assoc]⟩
    · exact ⟨contextText rs ++ strBytes "\n\nQuestion: ",
        strBytes "\n\nAnswer based on the context above:",
        by simp [RagPrompt, List.append_assoc]⟩

theorem sumSq_cons (x : ℚ) (l : List ℚ) : sumSq (x :: l) = x * x + sumSq l := by
  simp [sumSq]

theorem sumSq_map_mul (c : ℚ) (l : List ℚ) :
    sumSq (l.map fun v => v * c) = sumSq l * c ^ 2 := by
  induction l with
  | nil => simp [sumSq]
  | cons x t ih =>
    simp only [List.map_cons, sumSq_cons, ih]
    ring

theorem sumSq_map_div100 (l : List Nat) :
    sumSq (l.map fun k => (Nat.cast k : ℚ) / 100) = (sumSqNat l : ℚ) / 10000 := by
  induction l with
  | nil => simp [sumSq, sumSqNat]
  | cons x t ih =>
    have hs : sumSqNat (x :: t) = x * x + sumSqNat t := by simp [sumSqNat]
    rw [List.map_cons, sumSq_cons, ih, hs]
    push_cast
    ring

theorem getEmbedding_sumSq (s : GoStr) :
    sumSq (GetEmbedding s) =
      10000 * (sumSqNat (embedRaw s) : ℚ) / ((sumSqNat (embedRaw s) : ℚ) + 1) ^ 2 := by
  unfold GetEmbedding
  rw [sumSq_map_mul, sumSq_map_div100]
  have h1 : ((sumSqNat (embedRaw s) : ℚ) + 1) ≠ 0 := by positivity
  field_simp
  ring

set_option maxRecDepth 40000 in
/-- C1: the vector returned by `Embedder.GetEmbedding` does not have L2 norm 1:
on the one-byte input "a" the sum of squares of the output is
940900/885481 (about 1.063, an L2 norm of about 1.031), which is more than
1 + 1/20 away from nothing — the final step multiplies by
`1/(sum_of_squares + 1e-4)` instead of dividing by the square root of the
sum of squares, so the "Normalize" comment's intent is not met. -/
theorem getEmbedding_norm_not_one :
    sumSq (GetEmbedding (strBytes "a")) = 940900 / 885481 ∧
    1 + 1 / 20 < sumSq (GetEmbedding (strBytes "a")) := by
  have hN : sumSqNat (embedRaw (strBytes "a")) = 9409 := by decide
  have h := getEmbedding_sumSq (strBytes "a")
  rw [hN] at h
  rw [h]
  norm_num

theorem chunkLoop_isSome (text : GoStr) (cs ov : Nat) (hstep : 0 < cs - ov) :
    ∀ fuel i : Nat, text.length - i < fuel → (chunkLoop text cs ov fuel i).isSome := by
  intro fuel
  induction fuel with
  | zero => intro i h; omega
  | succ f ih =>
    intro i h
    rw [chunkLoop]
    split_ifs with hi ht hend
    · exact ih (i + (cs - ov)) (by omega)
    · simp
    · have := ih (i + (cs - ov)) (by omega)
      cases hx : chunkLoop text cs ov f (i + (cs - ov)) <;> simp_all
    · simp

/-- C7: with positive parameters and overlap < chunkSize, the chunking loop
of `Embedder.ChunkText` terminates within `length + 1` iterations (its fuel
never runs out, so the model returns a value), and empty or all-whitespace
input yields the empty chunk sequence. -/
theorem chunkText_total (text source : GoStr) (chunkSize overlap : Nat)
    (hov : 0 < overlap) (hlt : overlap < chunkSize) :
    (ChunkText text source chunkSize overlap).isSome ∧
    (trimSpace text = [] → ChunkText text source chunkSize overlap = some []) := by
  constructor
  · have h := chunkLoop_isSome (trimSpace text) chunkSize overlap (by omega)
      ((trimSpace text).length + 1) 0 (by omega)
    unfold ChunkText chunkContents
    cases hx : chunkLoop (trimSpace text) chunkSize overlap ((trimSpace text).length + 1) 0 <;>
      simp_all
  · intro he
    unfold ChunkText chunkContents
    rw [he]
    rfl

/-- Witness for C7: the all-whitespace one-byte input with chunkSize 2 and
overlap 1 terminates and yields no chunks. -/
theorem chunkText_total_witness :
    (0 < 1 ∧ 1 < 2) ∧
    ((ChunkText (strBytes " ") (strBytes "f") 2 1).isSome ∧
      (trimSpace (strBytes " ") = [] → ChunkText (strBytes " ") (strBytes "f") 2 1 = some [])) :=
  ⟨by decide, chunkText_total _ _ _ _ (by decide) (by decide)⟩

theorem utf8DecodeGo_eq_of_take4 {l1 l2 : List Nat} (h : l1.take 4 = l2.take 4) :
    utf8DecodeGo l1 = utf8DecodeGo l2 := by
  have e : ∀ j, j < 4 → l1.get? j = l2.get? j := by
    intro j hj
    rw [← List.get?_take hj, h, List.get?_take hj]
  unfold utf8DecodeGo
  rw [e 0 (by norm_num), e 1 (by norm_num), e 2 (by norm_num), e 3 (by norm_num)]

theorem utf8DecodeGo_size_pos (l : List Nat) : 1 ≤ (utf8DecodeGo l).2 := by
  unfold utf8DecodeGo
  repeat' split
  all_goals try simp
  all_goals (split <;> simp)

theorem embedLoop_nil (fuel i hash : Nat) (emb : List Nat) :
    embedLoop fuel [] i hash emb = emb := by
  cases fuel <;> rfl

theorem embedLoop_past_384 (fuel : Nat) :
    ∀ (bs : List Nat) (i hash : Nat) (emb : List Nat),
      384 ≤ i → embedLoop fuel bs i hash emb = emb := by
  induction fuel with
  | zero => intro bs i hash emb _; rfl
  | succ f ih =>
    intro bs i hash emb h
    cases bs with
    | nil => rfl
    | cons b rest =>
      simp only [embedLoop]
      rw [if_neg (by omega)]
      exact ih _ _ _ _ (by omega)

theorem embedLoop_agree (f1 : Nat) :
    ∀ (f2 : Nat) (bs1 bs2 : List Nat) (i hash : Nat) (emb : List Nat),
      bs1.take (387 - i) = bs2.take (387 - i) →
      bs1.length ≤ f1 → bs2.length ≤ f2 →
      embedLoop f1 bs1 i hash emb = embedLoop f2 bs2 i hash emb := by
  induction f1 with
  | zero =>
    intro f2 bs1 bs2 i hash emb htake hl1 hl2
    have hb1 : bs1 = [] := List.length_eq_zero.mp (by omega)
    subst hb1
    by_cases hi : 384 ≤ i
    · rw [embedLoop_nil, embedLoop_past_384 _ _ _ _ _ hi]
    · have hb2 : bs2 = [] := by
        have h0 : bs2.take (387 - i) = [] := by rw [← htake]; simp
        rcases List.take_eq_nil_iff.mp h0 with h | h
        · omega
        · exact h
      subst hb2
      rw [embedLoop_nil, embedLoop_nil]
  | succ g1 ih =>
    intro f2 bs1 bs2 i hash emb htake hl1 hl2
    by_cases hi : 384 ≤ i
    · rw [embedLoop_past_384 _ _ _ _ _ hi, embedLoop_past_384 _ _ _ _ _ hi]
    · have h4 : 4 ≤ 387 - i := by omega
      cases bs1 with
      | nil =>
        have hb2 : bs2 = [] := by
          have h0 : bs2.take (387 - i) = [] := by rw [← htake]; simp
          rcases List.take_eq_nil_iff.mp h0 with h | h
          · omega
          · exact h
        subst hb2
        rw [embedLoop_nil, embedLoop_nil]
      | cons b1 r1 =>
        cases bs2 with
        | nil =>
          exfalso
          have h0 : (b1 :: r1).take (387 - i) = [] := by rw [htake]; simp
          rcases List.take_eq_nil_iff.mp h0 with h | h
          · omega
          · exact List.cons_ne_nil _ _ h
        | cons b2 r2 =>
          cases f2 with
          | zero => exact absurd hl2 (by simp)
          | succ g2 =>
            have hdec : utf8DecodeGo (b1 :: r1) = utf8DecodeGo (b2 :: r2) := by
              refine utf8DecodeGo_eq_of_take4 ?_
              have t1 : (b1 :: r1).take 4 = ((b1 :: r1).take (387 - i)).take 4 := by
                rw [List.take_take, min_eq_left h4]
              rw [t1, htake, List.take_take, min_eq_left h4]
            have hpos := utf8DecodeGo_size_pos (b2 :: r2)
            simp only [embedLoop]
            rw [hdec]
            refine ih g2 _ _ _ _ _ ?_ ?_ ?_
            · have harith : 387 - (i + (utf8DecodeGo (b2 :: r2)).2) =
                (387 - i) - (utf8DecodeGo (b2 :: r2)).2 := by omega
              rw [harith, ← List.drop_take, ← List.drop_take, htake]
            · rw [List.length_drop]
              simp only [List.length_cons] at hl1 ⊢
              omega
            · rw [List.length_drop]
              simp only [List.length_cons] at hl2 ⊢
              omega

/-- C10 amended: `Embedder.GetEmbedding` depends only on the first 387 bytes
of the input: any two strings that agree on their first 387 bytes (384 plus
up to 3 continuation bytes of a rune starting before offset 384) embed to
identical vectors, because a rune whose byte offset is 384 or more updates
the rolling hash but is never written into a coordinate. -/
theorem getEmbedding_agrees_on_387_bytes (s1 s2 : GoStr)
    (h : s1.take 387 = s2.take 387) : GetEmbedding s1 = GetEmbedding s2 := by
  have hr : embedRaw s1 = embedRaw s2 :=
    embedLoop_agree s1.length s2.length s1 s2 0 0 (List.replicate 384 0)
      (by simpa using h) (le_refl _) (le_refl _)
  unfold GetEmbedding
  rw [hr]

set_option maxRecDepth 100000 in
/-- Witness for C10 amended: two strings of length 388 that differ only in
their last byte embed identically. -/
theorem getEmbedding_agrees_on_387_bytes_witness :
    (List.replicate 387 97 ++ [98] : GoStr).take 387 =
      (List.replicate 387 97 ++ [99] : GoStr).take 387 ∧
    GetEmbedding (List.replicate 387 97 ++ [98]) =
      GetEmbedding (List.replicate 387 97 ++ [99]) :=
  ⟨by decide, getEmbedding_agrees_on_387_bytes _ _ (by decide)⟩

theorem getEmbedding_ne_of_raw (s1 s2 : GoStr) (k : Nat) (hk : k ≠ 0)
    (h1 : (embedRaw s1).head? = some k) (h2 : (embedRaw s2).head? = some k)
    (hS : sumSqNat (embedRaw s1) ≠ sumSqNat (embedRaw s2)) :
    GetEmbedding s1 ≠ GetEmbedding s2 := by
  intro heq
  have hh : (GetEmbedding s1).head? = (GetEmbedding s2).head? := by rw [heq]
  unfold GetEmbedding at hh
  simp only [sumSq_map_div100, List.head?_map, h1, h2, Option.map_some'] at hh
  set N1 : ℚ := (sumSqNat (embedRaw s1) : ℚ) with hN1
  set N2 : ℚ := (sumSqNat (embedRaw s2) : ℚ) with hN2
  have hkQ : (Nat.cast k : ℚ) / 100 ≠ 0 := by
    have : (Nat.cast k : ℚ) ≠ 0 := Nat.cast_ne_zero.mpr hk
    positivity
  have hden1 : N1 / 10000 + 1 / 10000 ≠ 0 := by
    have : (0:ℚ) ≤ N1 := by rw [hN1]; positivity
    positivity
  have hden2 : N2 / 10000 + 1 / 10000 ≠ 0 := by
    have : (0:ℚ) ≤ N2 := by rw [hN2]; positivity
    positivity
  have hinv : 1 / (N1 / 10000 + 1 / 10000) = 1 / (N2 / 10000 + 1 / 10000) :=
    mul_left_cancel₀ hkQ (Option.some.inj hh)
  have hNeq : N1 = N2 := by
    have hxy := (div_eq_div_iff hden1 hden2).mp hinv
    field_simp at hxy
    linarith
  rw [hN1, hN2] at hNeq
  exact hS (by exact_mod_cast hNeq)

set_option maxRecDepth 200000 in
/-- Counterexample for C10: two 385-byte strings that agree on their first
384 bytes (the last rune, a 2-byte sequence, starts at byte offset 383) but
embed to different vectors: the rune's second byte, at offset 384, changes
the value written into coordinate 383. -/
theorem getEmbedding_differs_past_384_bytes :
    (List.replicate 383 97 ++ [195, 169] : GoStr).take 384 =
      (List.replicate 383 97 ++ [195, 168] : GoStr).take 384 ∧
    GetEmbedding (List.replicate 383 97 ++ [195, 169]) ≠
      GetEmbedding (List.replicate 383 97 ++ [195, 168]) :=
  ⟨by decide,
   getEmbedding_ne_of_raw _ _ 97 (by decide) (by decide) (by decide) (by decide)⟩

theorem utf8DecodeGo_ascii {b : Nat} (rest : List Nat) (hb : b < 128) :
    utf8DecodeGo (b :: rest) = (b, 1) := by
  unfold utf8DecodeGo
  simp [hb]

theorem utf8DecodeLastGo_ascii {l : List Nat} {b : Nat} (hl : l.getLast? = some b)
    (hb : b < 128) : utf8DecodeLastGo l = (b, 1) := by
  unfold utf8DecodeLastGo
  rw [hl]
  simp [hb]

theorem trimLeftSpace_eq_self {l : GoStr} (h : NoWS l) (fuel : Nat) :
    trimLeftSpace fuel l = l := by
  cases fuel with
  | zero => rfl
  | succ f =>
    cases l with
    | nil => rfl
    | cons b rest =>
      obtain ⟨hb, hsp⟩ := h b (by simp)
      rw [trimLeftSpace, utf8DecodeGo_ascii rest hb]
      simp [hsp]

theorem trimRightSpace_eq_self {l : GoStr} (h : NoWS l) (fuel : Nat) :
    trimRightSpace fuel l = l := by
  cases fuel with
  | zero => rfl
  | succ f =>
    rcases hlast : l.getLast? with _ | b
    · have hnil : l = [] := by simpa using hlast
      subst hnil
      rw [trimRightSpace, show utf8DecodeLastGo ([] : GoStr) = (0xFFFD, 0) from rfl,
        show goIsSpaceRune 0xFFFD = false from by decide]
      simp
    · have hmem : b ∈ l := List.mem_of_getLast?_eq_some hlast
      obtain ⟨hb, hsp⟩ := h b hmem
      rw [trimRightSpace, utf8DecodeLastGo_ascii hlast hb]
      simp [hsp]

theorem trimSpace_eq_self {l : GoStr} (h : NoWS l) : trimSpace l = l := by
  unfold trimSpace
  rw [trimLeftSpace_eq_self h, trimRightSpace_eq_self h]

theorem trimLeftSpace_length_le :
    ∀ (fuel : Nat) (l : GoStr), (trimLeftSpace fuel l).length ≤ l.length := by
  intro fuel
  induction fuel with
  | zero => intro l; exact le_refl _
  | succ f ih =>
    intro l
    cases l with
    | nil => rfl
    | cons b rest =>
      rw [trimLeftSpace]
      split
      · refine le_trans (ih _) ?_
        rw [List.length_drop]
        omega
      · exact le_refl _

theorem trimRightSpace_length_le :
    ∀ (fuel : Nat) (l : GoStr), (trimRightSpace fuel l).length ≤ l.length := by
  intro fuel
  induction fuel with
  | zero => intro l; exact le_refl _
  | succ f ih =>
    intro l
    rw [trimRightSpace]
    split
    · refine le_trans (ih _) ?_
      rw [List.length_take]
      omega
    · exact le_refl _

theorem trimSpace_length_le (l : GoStr) : (trimSpace l).length ≤ l.length :=
  le_trans (trimRightSpace_length_le _ _) (trimLeftSpace_length_le _ _)

theorem noWS_drop {l : GoStr} (h : NoWS l) (n : Nat) : NoWS (l.drop n) :=
  fun b hb => h b (List.mem_of_mem_drop hb)

theorem noWS_take {l : GoStr} (h : NoWS l) (n : Nat) : NoWS (l.take n) :=
  fun b hb => h b (List.mem_of_mem_take hb)

theorem chunkLoop_eq_winList (text : GoStr) (cs ov : Nat) (hnws : NoWS text)
    (hstep : 0 < cs - ov) :
    ∀ fuel i, i < text.length → text.length - i < fuel →
      chunkLoop text cs ov fuel i = some (winList text cs (cs - ov) fuel i) := by
  intro fuel
  induction fuel with
  | zero => intro i hi h; omega
  | succ f ih =>
    intro i hi h
    have hw : trimSpace ((text.drop i).take cs) = (text.drop i).take cs :=
      trimSpace_eq_self (noWS_take (noWS_drop hnws i) cs)
    have hwne : (text.drop i).take cs ≠ [] := by
      have hlen : ((text.drop i).take cs).length = min cs (text.length - i) := by
        rw [List.length_take, List.length_drop]
      intro hnil
      rw [hnil] at hlen
      simp only [List.length_nil] at hlen
      omega
    rw [chunkLoop, winList, if_pos hi, hw, if_neg hwne]
    by_cases hend : text.length ≤ i + cs
    · rw [if_pos hend, if_pos hend,
        List.take_of_length_le (by rw [List.length_drop]; omega)]
    · rw [if_neg hend, if_neg hend, ih (i + (cs - ov)) (by omega) (by omega)]
      rfl

theorem winList_joinTail (text : GoStr) (cs ov : Nat) (hlt : ov < cs) :
    ∀ fuel i, i < text.length → text.length - i < fuel →
      ((winList text cs (cs - ov) fuel i).map (List.drop ov)).flatten =
        text.drop (i + ov) := by
  intro fuel
  induction fuel with
  | zero => intro i hi h; omega
  | succ f ih =>
    intro i hi h
    rw [winList]
    by_cases hend : text.length ≤ i + cs
    · rw [if_pos hend]
      simp [List.drop_drop, Nat.add_comm]
    · rw [if_neg hend, List.map_cons, List.flatten_cons,
        ih (i + (cs - ov)) (by omega) (by omega)]
      have e1 : ((text.drop i).take cs).drop ov = (text.drop (i + ov)).take (cs - ov) := by
        rw [List.drop_take, List.drop_drop]
      have e2 : text.drop (i + (cs - ov) + ov) = (text.drop (i + ov)).drop (cs - ov) := by
        rw [List.drop_drop]
        congr 1
        omega
      rw [e1, e2]
      exact List.take_append_drop _ _

theorem winList_join (text : GoStr) (cs ov : Nat) (hlt : ov < cs) :
    ∀ fuel i, i < text.length → text.length - i < fuel →
      joinOverlap ov (winList text cs (cs - ov) fuel i) = text.drop i := by
  intro fuel
  induction fuel with
  | zero => intro i hi h; omega
  | succ f ih =>
    intro i hi h
    rw [winList]
    by_cases hend : text.length ≤ i + cs
    · rw [if_pos hend]
      simp [joinOverlap]
    · rw [if_neg hend]
      rw [joinOverlap, winList_joinTail text cs ov hlt f (i + (cs - ov)) (by omega) (by omega)]
      have h1 : i + (cs - ov) + ov = i + cs := by omega
      rw [h1]
      have h2 : text.drop (i + cs) = ((text.drop i)).drop cs := by
        rw [List.drop_drop]
      rw [h2]
      exact List.take_append_drop _ _

theorem winList_lengths (text : GoStr) (cs ov : Nat) :
    ∀ fuel i, i < text.length →
      ∀ c ∈ winList text cs (cs - ov) fuel i, c.length ≤ cs := by
  intro fuel
  induction fuel with
  | zero => intro i hi c hc; cases hc
  | succ f ih =>
    intro i hi c hc
    rw [winList] at hc
    by_cases hend : text.length ≤ i + cs
    · rw [if_pos hend] at hc
      rcases List.mem_singleton.mp hc with rfl
      rw [List.length_drop]
      omega
    · rw [if_neg hend] at hc
      rcases List.mem_cons.mp hc with rfl | hc
      · rw [List.length_take]
        omega
      · exact ih (i + (cs - ov)) (by omega) c hc

theorem winList_cons (text : GoStr) (cs ov : Nat) :
    ∀ fuel i, i < text.length → text.length - i < fuel →
      ∃ t, winList text cs (cs - ov) fuel i = ((text.drop i).take cs) :: t := by
  intro fuel
  induction fuel with
  | zero => intro i hi h; omega
  | succ f _ =>
    intro i hi h
    rw [winList]
    by_cases hend : text.length ≤ i + cs
    · rw [if_pos hend, List.take_of_length_le (by rw [List.length_drop]; omega)]
      exact ⟨[], rfl⟩
    · rw [if_neg hend]
      exact ⟨_, rfl⟩

theorem winList_pairs (text : GoStr) (cs ov : Nat) (hlt : ov < cs) :
    ∀ fuel i, i < text.length → text.length - i < fuel →
      ∀ (j : Nat) (a b : GoStr),
        (winList text cs (cs - ov) fuel i).get? j = some a →
        (winList text cs (cs - ov) fuel i).get? (j + 1) = some b →
        a.length = cs ∧ a.drop (cs - ov) = b.take ov := by
  intro fuel
  induction fuel with
  | zero => intro i hi h; omega
  | succ f ih =>
    intro i hi h j a b ha hb
    rw [winList] at ha hb
    by_cases hend : text.length ≤ i + cs
    · rw [if_pos hend] at hb
      rcases j with _ | j <;> simp at hb
    · rw [if_neg hend] at ha hb
      rcases j with _ | j
      · have ha' : a = (text.drop i).take cs := by
          simpa using ha.symm
        obtain ⟨t, ht⟩ := winList_cons text cs ov f (i + (cs - ov)) (by omega) (by omega)
        have hb' : b = (text.drop (i + (cs - ov))).take cs := by
          rw [List.get?_cons_succ, ht] at hb
          simpa using hb.symm
        subst ha'
        subst hb'
        constructor
        · rw [List.length_take, List.length_drop]
          omega
        · rw [List.drop_take, List.take_take, List.drop_drop]
          have h1 : cs - (cs - ov) = ov := by omega
          have h2 : min ov cs = ov := by omega
          rw [h1, h2]
      · rw [List.get?_cons_succ] at ha hb
        exact ih (i + (cs - ov)) (by omega) (by omega) j a b ha hb

theorem chunkLoop_lengths (text : GoStr) (cs ov : Nat) :
    ∀ fuel i l, chunkLoop text cs ov fuel i = some l → ∀ c ∈ l, c.length ≤ cs := by
  intro fuel
  induction fuel with
  | zero => intro i l hl; cases hl
  | succ f ih =>
    intro i l hl c hc
    rw [chunkLoop] at hl
    by_cases hi : i < text.length
    · rw [if_pos hi] at hl
      by_cases ht : trimSpace ((text.drop i).take cs) = []
      · rw [if_pos ht] at hl
        exact ih _ _ hl c hc
      · rw [if_neg ht] at hl
        by_cases hend : text.length ≤ i + cs
        · rw [if_pos hend] at hl
          obtain rfl := (Option.some.inj hl).symm
          rcases List.mem_singleton.mp hc with rfl
          refine le_trans (trimSpace_length_le _) ?_
          rw [List.length_take]
          omega
        · rw [if_neg hend] at hl
          rcases hmap : chunkLoop text cs ov f (i + (cs - ov)) with _ | l'
          · rw [hmap] at hl; cases hl
          · rw [hmap] at hl
            obtain rfl := (Option.some.inj hl).symm
            rcases List.mem_cons.mp hc with rfl | hc2
            · refine le_trans (trimSpace_length_le _) ?_
              rw [List.length_take]
              omega
            · exact ih _ _ hmap c hc2
    · rw [if_neg hi] at hl
      obtain rfl := (Option.some.inj hl).symm
      cases hc

theorem map_content_enum (source : GoStr) (l : List GoStr) :
    ((l.enum.map fun p =>
        ({ ID := []
           Content := p.2
           Source := source
           Metadata := [(strBytes "source", source), (strBytes "chunk", natBytes p.1)] }
          : TextChunk)).map TextChunk.Content) = l := by
  rw [List.map_map]
  exact List.enum_map_snd l

/-- C3 amended: under `chunkSize > overlap > 0` every emitted chunk's content
has length at most chunkSize (for any text); and for whitespace-free ASCII
text (`NoWS`: every byte below 0x80 and not whitespace — otherwise the
per-window trimming, which also strips Unicode whitespace runes such as
U+00A0 at window edges, and the skipping of all-whitespace windows discard
bytes) the chunk contents reconstruct the trimmed text exactly when each
chunk after the first drops its leading `overlap` bytes, and every pair of
consecutive chunks shares exactly `overlap` bytes (the earlier chunk of a
pair is always a full window of length chunkSize, and its last `overlap`
bytes are the next chunk's first `overlap` bytes). -/
theorem chunkText_reconstruction (text source : GoStr) (chunkSize overlap : Nat)
    (hov : 0 < overlap) (hlt : overlap < chunkSize) :
    (∀ chunks, ChunkText text source chunkSize overlap = some chunks →
        ∀ c ∈ chunks, c.Content.length ≤ chunkSize) ∧
    (NoWS text →
      ∃ chunks, ChunkText text source chunkSize overlap = some chunks ∧
        joinOverlap overlap (chunks.map TextChunk.Content) = trimSpace text ∧
        ∀ (j : Nat) (a b : GoStr),
          (chunks.map TextChunk.Content).get? j = some a →
          (chunks.map TextChunk.Content).get? (j + 1) = some b →
          a.length = chunkSize ∧ a.drop (a.length - overlap) = b.take overlap) := by
  constructor
  · intro chunks hck c hc
    rcases hl : chunkContents text chunkSize overlap with _ | l
    · rw [ChunkText, hl] at hck; cases hck
    · rw [ChunkText, hl] at hck
      obtain rfl := (Option.some.inj hck).symm
      have hmem : c.Content ∈ l := by
        rw [← map_content_enum source l]
        exact List.mem_map_of_mem _ hc
      rw [chunkContents] at hl
      exact chunkLoop_lengths (trimSpace text) chunkSize overlap _ 0 l hl c.Content hmem
  · intro hnws
    have htt : trimSpace text = text := trimSpace_eq_self hnws
    by_cases h0 : text.length = 0
    · have hnil : text = [] := List.length_eq_zero.mp h0
      subst hnil
      exact ⟨[], rfl, rfl, fun j a b ha _ => by cases ha⟩
    · have hpos : 0 < text.length := by omega
      have hloop := chunkLoop_eq_winList text chunkSize overlap hnws (by omega)
        (text.length + 1) 0 hpos (by omega)
      refine ⟨(winList text chunkSize (chunkSize - overlap) (text.length + 1) 0).enum.map
        (fun p =>
          { ID := []
            Content := p.2
            Source := source
            Metadata := [(strBytes "source", source), (strBytes "chunk", natBytes p.1)] }),
        ?_, ?_, ?_⟩
      · rw [ChunkText, chunkContents, htt, hloop]
        rfl
      · rw [map_content_enum, htt]
        have hj := winList_join text chunkSize overlap hlt (text.length + 1) 0 hpos (by omega)
        rw [List.drop_zero] at hj
        exact hj
      · rw [map_content_enum]
        intro j a b ha hb
        have hp := winList_pairs text chunkSize overlap hlt (text.length + 1) 0 hpos
          (by omega) j a b ha hb
        refine ⟨hp.1, ?_⟩
        rw [hp.1]
        exact hp.2

/-- Witness for C3 amended: the whitespace-free text `abcde` with chunkSize 3
and overlap 1. -/
theorem chunkText_reconstruction_witness :
    (0 < 1 ∧ 1 < 3 ∧ NoWS (strBytes "abcde")) ∧
    ((∀ chunks, ChunkText (strBytes "abcde") (strBytes "f") 3 1 = some chunks →
        ∀ c ∈ chunks, c.Content.length ≤ 3) ∧
     (NoWS (strBytes "abcde") →
      ∃ chunks, ChunkText (strBytes "abcde") (strBytes "f") 3 1 = some chunks ∧
        joinOverlap 1 (chunks.map TextChunk.Content) = trimSpace (strBytes "abcde") ∧
        ∀ (j : Nat) (a b : GoStr),
          (chunks.map TextChunk.Content).get? j = some a →
          (chunks.map TextChunk.Content).get? (j + 1) = some b →
          a.length = 3 ∧ a.drop (a.length - 1) = b.take 1)) :=
  ⟨by decide, chunkText_reconstruction (strBytes "abcde") (strBytes "f") 3 1
    (by decide) (by decide)⟩

/-- Counterexample for C3: on `ab  cd  ef` with chunkSize 4 and overlap 2
the emitted contents are `ab`, `cd`, `cd`, `ef` (each window is trimmed
before it is stored), their concatenation with overlaps removed is `ab`,
not the trimmed text, and the first (non-final) pair of consecutive chunks
does not share 2 characters. -/
theorem chunkText_trim_breaks_reconstruction :
    (ChunkText (strBytes "ab  cd  ef") (strBytes "f") 4 2).map (List.map TextChunk.Content) =
      some [strBytes "ab", strBytes "cd", strBytes "cd", strBytes "ef"] ∧
    joinOverlap 2 [strBytes "ab", strBytes "cd", strBytes "cd", strBytes "ef"] ≠
      trimSpace (strBytes "ab  cd  ef") ∧
    ¬((strBytes "ab").drop ((strBytes "ab").length - 2) = (strBytes "cd").take 2) :=
  ⟨by decide, by decide, by decide⟩
